import Mathlib

/-!
Verification of the Camera Identity & Photo Authentication Codec of the
BlockchainBased-VideoSurveillance-System repository.

Bytes are modelled as `List ℕ` with every element below 256; 64-bit lanes as
`ℕ` reduced modulo `2 ^ 64`; strings as `List Char`.  Python functions from
the repository are translated into Lean definitions of the same name;
behaviour of third-party libraries (web3, eth-abi, eth-account, pycryptodome)
that the repository calls is modelled from the specification and marked as
such in the doc comments.
-/

namespace Surveillance

/-! ### Byte and word utilities -/

/-- 64-bit left rotation (lanes are natural numbers reduced mod `2 ^ 64`). -/
def rotl64 (x n : ℕ) : ℕ :=
  ((x <<< n) ||| (x >>> (64 - n))) % 2 ^ 64

/-- Little-endian interpretation of a byte list as a natural number. -/
def leNat (bs : List ℕ) : ℕ :=
  bs.foldr (fun b acc => b + 256 * acc) 0

/-- Big-endian interpretation of a byte list as a natural number. -/
def beNat (bs : List ℕ) : ℕ :=
  bs.foldl (fun acc b => acc * 256 + b) 0

/-- The `w` little-endian bytes of `n`. -/
def leBytes (w n : ℕ) : List ℕ :=
  (List.range w).map fun i => (n >>> (8 * i)) % 256

/-- The `w` big-endian bytes of `n` (`uint256` is encoded with `w = 32`). -/
def beBytes (w n : ℕ) : List ℕ :=
  (List.range w).map fun i => (n >>> (8 * (w - 1 - i))) % 256

/-- UTF-8 encoding of a single character. -/
def utf8Char (c : Char) : List ℕ :=
  let n := c.toNat
  if n < 0x80 then [n]
  else if n < 0x800 then
    [0xC0 ||| (n >>> 6), 0x80 ||| (n &&& 0x3F)]
  else if n < 0x10000 then
    [0xE0 ||| (n >>> 12), 0x80 ||| ((n >>> 6) &&& 0x3F), 0x80 ||| (n &&& 0x3F)]
  else
    [0xF0 ||| (n >>> 18), 0x80 ||| ((n >>> 12) &&& 0x3F),
     0x80 ||| ((n >>> 6) &&& 0x3F), 0x80 ||| (n &&& 0x3F)]

/-- UTF-8 encoding of a string (Python `str.encode("utf-8")`). -/
def utf8 (s : List Char) : List ℕ :=
  (s.map utf8Char).flatten

/-- Lowercase hexadecimal digit for a nibble. -/
def hexDigit (n : ℕ) : Char :=
  "0123456789abcdef".data.getD n '0'

/-- Lowercase hexadecimal rendering of a byte list (Python `bytes.hex()`). -/
def bytesToHex (bs : List ℕ) : List Char :=
  (bs.map fun b => [hexDigit (b / 16), hexDigit (b % 16)]).flatten

/-- Value of a hexadecimal digit character, `none` when not a hex digit. -/
def hexVal (c : Char) : Option ℕ :=
  if '0' ≤ c ∧ c ≤ '9' then some (c.toNat - '0'.toNat)
  else if 'a' ≤ c ∧ c ≤ 'f' then some (c.toNat - 'a'.toNat + 10)
  else if 'A' ≤ c ∧ c ≤ 'F' then some (c.toNat - 'A'.toNat + 10)
  else none

/-- Decode a hexadecimal string into bytes, two digits per byte; an
odd-length string is padded with a leading zero digit (the behaviour of
web3's `to_bytes(hexstr=...)`).  Fails on a non-hex character. -/
def hexToBytes : List Char → Option (List ℕ)
  | [] => some []
  | [c] =>
    match hexVal c with
    | some v => some [v]
    | none => none
  | c₁ :: c₂ :: rest =>
    match hexVal c₁, hexVal c₂, hexToBytes rest with
    | some v₁, some v₂, some bs => some ((16 * v₁ + v₂) :: bs)
    | _, _, _ => none

/-- Web3 `to_bytes(hexstr=...)`: odd-length hex gets a leading `0` digit. -/
def hexStrToBytes (s : List Char) : Option (List ℕ) :=
  if s.length % 2 = 1 then hexToBytes ('0' :: s) else hexToBytes s

/-! ### Keccak-256

Full implementation of the original Keccak-256 (pad byte `0x01`, distinct
from NIST SHA3-256), as used by `Web3.keccak` / `Web3.solidity_keccak`.
The state is 25 lanes of 64 bits, rate 136 bytes. -/

/-- The 24 Keccak round constants. -/
def keccakRC : List ℕ :=
  [0x1, 0x8082, 0x800000000000808a,
   0x8000000080008000, 0x808b, 0x80000001,
   0x8000000080008081, 0x8000000000008009, 0x8a,
   0x88, 0x80008009, 0x8000000a,
   0x8000808b, 0x800000000000008b, 0x8000000000008089,
   0x8000000000008003, 0x8000000000008002, 0x8000000000000080,
   0x800a, 0x800000008000000a, 0x8000000080008081,
   0x8000000000008080, 0x80000001, 0x8000000080008008]

/-- Source lane index for each output lane of the combined ρ-π step
(lane `(x, y)` is stored at index `x + 5 * y`). -/
def rhoPiSrc : List ℕ :=
  [0, 6, 12, 18, 24, 3, 9, 10, 16, 22, 1, 7, 13, 19, 20, 4, 5, 11, 17, 23, 2, 8, 14, 15, 21]

/-- Rotation amount for each output lane of the combined ρ-π step. -/
def rhoPiRot : List ℕ :=
  [0, 44, 43, 21, 14, 28, 20, 3, 45, 61, 1, 6, 25, 8, 18, 27, 36, 10, 15, 56, 62, 55, 39, 41, 2]

/-- θ step. -/
def keccakTheta (A : List ℕ) : List ℕ :=
  let C := (List.range 5).map fun x =>
    A.getD x 0 ^^^ A.getD (x + 5) 0 ^^^ A.getD (x + 10) 0 ^^^
      A.getD (x + 15) 0 ^^^ A.getD (x + 20) 0
  let D := (List.range 5).map fun x =>
    C.getD ((x + 4) % 5) 0 ^^^ rotl64 (C.getD ((x + 1) % 5) 0) 1
  (List.range 25).map fun i => A.getD i 0 ^^^ D.getD (i % 5) 0

/-- Combined ρ and π steps. -/
def keccakRhoPi (A : List ℕ) : List ℕ :=
  (List.range 25).map fun i => rotl64 (A.getD (rhoPiSrc.getD i 0) 0) (rhoPiRot.getD i 0)

/-- χ step (`~a` on a 64-bit lane is `a ^^^ (2 ^ 64 - 1)`). -/
def keccakChi (A : List ℕ) : List ℕ :=
  (List.range 25).map fun i =>
    let x := i % 5
    let y5 := i - x
    A.getD i 0 ^^^ ((A.getD ((x + 1) % 5 + y5) 0 ^^^ (2 ^ 64 - 1)) &&& A.getD ((x + 2) % 5 + y5) 0)

/-- One Keccak-f round. -/
def keccakRound (A : List ℕ) (rc : ℕ) : List ℕ :=
  match keccakChi (keccakRhoPi (keccakTheta A)) with
  | [] => []
  | a0 :: rest => (a0 ^^^ rc) :: rest

/-- The Keccak-f[1600] permutation: 24 rounds. -/
def keccakF (A : List ℕ) : List ℕ :=
  keccakRC.foldl keccakRound A

/-- Keccak `pad10*1` with domain byte `0x01` (original Keccak, not SHA-3). -/
def keccakPad (msg : List ℕ) : List ℕ :=
  let q := 136 - msg.length % 136
  if q = 1 then msg ++ [0x81]
  else msg ++ 0x01 :: List.replicate (q - 2) 0 ++ [0x80]

/-- XOR a 136-byte rate block (as 17 little-endian lanes) into the state. -/
def keccakAbsorbBlock (A block : List ℕ) : List ℕ :=
  let lanes := (List.range 17).map fun i => leNat ((block.drop (8 * i)).take 8)
  List.zipWith (· ^^^ ·) A (lanes ++ List.replicate 8 0)

/-- Absorb the (already padded) message, one 136-byte block per step. -/
def keccakAbsorb : ℕ → List ℕ → List ℕ → List ℕ
  | 0, A, _ => A
  | fuel + 1, A, msg =>
    if msg.isEmpty then A
    else keccakAbsorb fuel (keccakF (keccakAbsorbBlock A (msg.take 136))) (msg.drop 136)

/-- Keccak-256 digest (32 bytes) of a byte sequence. -/
def keccak256 (msg : List ℕ) : List ℕ :=
  let padded := keccakPad msg
  let A := keccakAbsorb (msg.length + 1) (List.replicate 25 0) padded
  (List.range 32).map fun i => (A.getD (i / 8) 0 >>> (8 * (i % 8))) % 256

/-! ### Solidity packed ABI encoding

Modelled from the spec: the behaviour of `eth_abi.packed.encode_packed`
(used by `generate_camera_id.py`) and of `Web3.solidity_keccak`'s packed
encoder, for the three type tags this system uses. -/

/-- The ABI type tags used by the repository. -/
inductive ABIType
  | string
  | bytes32
  | uint256
deriving DecidableEq

/-- Runtime values fed to the packed encoder. -/
inductive ABIValue
  | str (s : List Char)
  | bytes (bs : List ℕ)
  | uint (n : ℕ)
deriving DecidableEq

/-- Packed-encoding failures: a value whose runtime shape does not match its
declared type tag, or a value out of the range of its type. -/
inductive EncErr
  | typeMismatch
  | valueOutOfBounds
deriving DecidableEq

/-- Packed encoding of a single typed value: strings as raw UTF-8 with no
length or padding, `bytes32` as its exact 32 raw bytes, `uint256` as 32
big-endian bytes. -/
def encodePackedOne : ABIType → ABIValue → Except EncErr (List ℕ)
  | .string, .str s => .ok (utf8 s)
  | .bytes32, .bytes bs => if bs.length = 32 then .ok bs else .error .valueOutOfBounds
  | .uint256, .uint n => if n < 2 ^ 256 then .ok (beBytes 32 n) else .error .valueOutOfBounds
  | _, _ => .error .typeMismatch

/-- `eth_abi.packed.encode_packed`: each value encoded by its type tag, the
results concatenated in argument order with no separators. -/
def encode_packed : List ABIType → List ABIValue → Except EncErr (List ℕ)
  | [], [] => .ok []
  | t :: ts, v :: vs => do
    let b ← encodePackedOne t v
    let rest ← encode_packed ts vs
    pure (b ++ rest)
  | _, _ => .error .typeMismatch

/-- `Web3.solidity_keccak`: Keccak-256 of the packed encoding. -/
def solidity_keccak (ts : List ABIType) (vs : List ABIValue) : Except EncErr (List ℕ) :=
  (encode_packed ts vs).map keccak256

/-! ### Camera identity (`generate_camera_id.py`) -/

/-- `generate_camera_id(mac_address, efuse_id)`:
`keccak256(encode_packed(['string','string'], [mac_address, efuse_id]))`,
returned as the `0x`-prefixed lowercase hex string produced by
`HexBytes.hex()`. -/
def generate_camera_id (mac_address efuse_id : List Char) : Except EncErr (List Char) := do
  let encoded ← encode_packed [.string, .string] [.str mac_address, .str efuse_id]
  let camera_id := keccak256 encoded
  pure ('0' :: 'x' :: bytesToHex camera_id)

/-! ### AES-128-CBC decryption (`decrypt_from_cid.py`)

The AES block cipher itself lives in pycryptodome; it is abstracted as an
explicit block-decryption (resp. block-encryption) argument `D` (resp. `E`)
taking the key and one 16-byte block. -/

/-- Failures of `decrypt_aes_cbc` / `pkcs7_unpad`, one constructor per
`raise` site:
* `keyLen` — `ValueError("AES-128 richiede una chiave di 16 byte")`;
* `ivLen` — `ValueError("IV deve essere di 16 byte")`;
* `cbcDataLen` — modelled from the spec: pycryptodome's CBC check that the
  data is a multiple of the 16-byte block boundary;
* `emptyData` — `ValueError("plaintext vuoto")` in `pkcs7_unpad`;
* `badPadding` — `ValueError("padding non valido")` in `pkcs7_unpad`. -/
inductive DecErr
  | keyLen
  | ivLen
  | cbcDataLen
  | emptyData
  | badPadding
deriving DecidableEq

/-- The spec's `InvalidCiphertextLengthError` ("ciphertext length is not a
positive multiple of the block size"): in the code this surfaces either as
pycryptodome's block-boundary check (length not a multiple of 16) or as the
unpadder's empty check (length zero — CBC preserves length, so the decrypted
data is empty exactly when the ciphertext is). -/
def DecErr.isCiphertextLengthError : DecErr → Prop
  | .cbcDataLen => True
  | .emptyData => True
  | _ => False

/-- `pkcs7_unpad(data)`: read the last byte as the pad length, reject pad
lengths `0` and `> 16` and trailing bytes that are not all equal to the pad
length, otherwise strip the pad. -/
def pkcs7_unpad (data : List ℕ) : Except DecErr (List ℕ) :=
  if data.isEmpty then .error .emptyData
  else
    let pad_len := data.getLastD 0
    if pad_len = 0 ∨ 16 < pad_len then .error .badPadding
    else if data.drop (data.length - pad_len) ≠ List.replicate pad_len pad_len then
      .error .badPadding
    else .ok (data.take (data.length - pad_len))

/-- Bytewise XOR (CBC chaining). -/
def xorBytes (a b : List ℕ) : List ℕ :=
  List.zipWith (· ^^^ ·) a b

/-- CBC-mode decryption loop: each plaintext block is the block decryption
of the ciphertext block XORed with the previous ciphertext block (the IV for
the first block).  Structural fuel bounds the number of 16-byte blocks. -/
def cbcDecryptBlocks (D : List ℕ → List ℕ → List ℕ) (key : List ℕ) :
    ℕ → List ℕ → List ℕ → List ℕ
  | 0, _, _ => []
  | fuel + 1, prev, ct =>
    if ct.isEmpty then []
    else xorBytes (D key (ct.take 16)) prev ++
      cbcDecryptBlocks D key fuel (ct.take 16) (ct.drop 16)

/-- `decrypt_aes_cbc(ciphertext, key, iv)`: validate the key and IV lengths,
CBC-decrypt (pycryptodome additionally rejects data that is not a multiple
of the block boundary), then strip PKCS#7 padding. -/
def decrypt_aes_cbc (D : List ℕ → List ℕ → List ℕ) (ciphertext key iv : List ℕ) :
    Except DecErr (List ℕ) :=
  if key.length ≠ 16 then .error .keyLen
  else if iv.length ≠ 16 then .error .ivLen
  else if ciphertext.length % 16 ≠ 0 then .error .cbcDataLen
  else pkcs7_unpad (cbcDecryptBlocks D key ciphertext.length iv ciphertext)

/-- Modelled from the spec: PKCS#7 padding of the encryption side (the
receiver that writes the `.cid` descriptor is not part of the sources) —
append `p` copies of `p` where `p = 16 - len % 16 ∈ [1, 16]`. -/
def pkcs7_pad (data : List ℕ) : List ℕ :=
  let p := 16 - data.length % 16
  data ++ List.replicate p p

/-- Modelled from the spec: CBC-mode encryption loop — each ciphertext block
is the block encryption of the plaintext block XORed with the previous
ciphertext block (the IV for the first block). -/
def cbcEncryptBlocks (E : List ℕ → List ℕ → List ℕ) (key : List ℕ) :
    ℕ → List ℕ → List ℕ → List ℕ
  | 0, _, _ => []
  | fuel + 1, prev, pt =>
    if pt.isEmpty then []
    else
      let c := E key (xorBytes (pt.take 16) prev)
      c ++ cbcEncryptBlocks E key fuel c (pt.drop 16)

/-- Modelled from the spec: AES-128-CBC encryption of the PKCS#7-padded
plaintext. -/
def encrypt_aes_cbc (E : List ℕ → List ℕ → List ℕ) (plaintext key iv : List ℕ) : List ℕ :=
  cbcEncryptBlocks E key (plaintext.length + 16) iv (pkcs7_pad plaintext)

/-! ### ECDSA over secp256k1 and photo signing (`sign_photo.py`) -/

/-- The order of the secp256k1 base point. -/
def secpN : ℕ := 0xFFFFFFFFFFFFFFFFFFFFFFFFFFFFFFFEBAAEDCE6AF48A03BBFD25E8CD0364141

instance : NeZero secpN := ⟨by decide⟩

instance : Fact (1 < secpN) := ⟨by norm_num [secpN]⟩

/-- Modelled from the spec: the secp256k1 / Ethereum signing backend that
`eth_account` provides (`Account.from_key`, `Account.sign_message`).  The
prime-order subgroup generated by the secp256k1 base point is abstracted as
an additive commutative group `P` whose generator `g` is killed by the group
order `secpN`; `xcoord` is the x-coordinate of a point reduced mod `secpN`;
`nonceOf` the deterministic RFC 6979 nonce derivation; `parity` the
y-parity used for the recovery id; `addrOf` the Keccak-derived Ethereum
address of a public-key point. -/
structure EthChain (P : Type) [AddCommGroup P] where
  g : P
  ordg : secpN • g = 0
  xcoord : P → ZMod secpN
  nonceOf : ZMod secpN → ZMod secpN → ZMod secpN
  parity : P → Bool
  addrOf : P → List Char

variable {P : Type} [AddCommGroup P]

/-- Public-key point of a private scalar. -/
def pubkey (C : EthChain P) (d : ZMod secpN) : P :=
  d.val • C.g

/-- Modelled from the spec: deterministic ECDSA over the digest `z`:
`k = RFC6979(d, z)`, `R = k·G`, `r = x(R) mod n`, `s = k⁻¹·(z + r·d) mod n`,
`v = 27 + yParity(R)`. -/
def ecdsaSign (C : EthChain P) (d z : ZMod secpN) : ZMod secpN × ZMod secpN × ℕ :=
  let k := C.nonceOf d z
  let R := k.val • C.g
  let r := C.xcoord R
  (r, k⁻¹ * (z + r * d), 27 + (if C.parity R then 1 else 0))

/-- Modelled from the spec: standard ECDSA public-key recovery
`Q = r⁻¹·(s·R − z·G)`.  `R` is the signer's nonce point, which the verifier
reconstructs from `(r, v)`; the reconstruction is taken as given — the model
receives the point. -/
def ecdsaRecover (C : EthChain P) (R : P) (r s z : ZMod secpN) : P :=
  (r⁻¹ * s).val • R - (r⁻¹ * z).val • C.g

/-- Modelled from the spec: `eth_account.messages.encode_defunct` — the
EIP-191 "personal sign" preimage: the byte `0x19`, the ASCII text
`"Ethereum Signed Message:\n"`, the decimal length of the payload, then the
payload itself. -/
def encode_defunct (msg : List ℕ) : List ℕ :=
  0x19 :: utf8 "Ethereum Signed Message:\n".data ++ utf8 (Nat.repr msg.length).data ++ msg

/-- Failures of `sign_photo`, one constructor per failing call:
* `invalidKey` — `Account.from_key` rejects a key that is not a valid
  secp256k1 scalar;
* `invalidHex` — web3's `to_bytes(hexstr=…)` rejects a non-hexadecimal
  photo hash;
* `invalidInput` — the packed encoder inside `Web3.solidity_keccak` rejects
  a `bytes32` value that is not exactly 32 bytes or a `uint256` value that
  does not fit in 256 bits. -/
inductive SignError
  | invalidKey
  | invalidHex
  | invalidInput
deriving DecidableEq

/-- The record returned by `sign_photo` (the Python dict). -/
structure SignedPhoto where
  photo_hash : List Char
  location : List Char
  metadata : List Char
  nonce : ℕ
  signature : List ℕ
  camera_address : List Char
  r : ZMod secpN
  s : ZMod secpN
  v : ℕ
deriving DecidableEq

/-- `photo_hash.startswith('0x')`. -/
def has0x : List Char → Bool
  | '0' :: 'x' :: _ => true
  | _ => false

/-- `sign_photo(private_key, photo_hash, location, metadata, nonce)`:
create the account from the private key (the key is modelled already reduced
to a scalar in `ZMod secpN`; `Account.from_key` rejects scalars outside
`[1, n-1]`, i.e. the zero scalar here), normalize the hex photo hash by
prepending `0x` when absent, hash
`solidity_keccak(['bytes32','string','string','uint256'], …)`, and sign the
EIP-191 personal-message digest of that hash. -/
def sign_photo (C : EthChain P) (private_key : ZMod secpN) (photo_hash : List Char)
    (location metadata : List Char) (nonce : ℕ) : Except SignError SignedPhoto :=
  if private_key = 0 then .error .invalidKey
  else
    let ph := if has0x photo_hash then photo_hash else '0' :: 'x' :: photo_hash
    match hexStrToBytes (ph.drop 2) with
    | none => .error .invalidHex
    | some hb =>
      match solidity_keccak [.bytes32, .string, .string, .uint256]
          [.bytes hb, .str location, .str metadata, .uint nonce] with
      | .error _ => .error .invalidInput
      | .ok message_hash =>
        let z : ZMod secpN := (beNat (keccak256 (encode_defunct message_hash)) : ℕ)
        let rsv := ecdsaSign C private_key z
        .ok { photo_hash := ph, location := location, metadata := metadata, nonce := nonce,
              signature := beBytes 32 rsv.1.val ++ beBytes 32 rsv.2.1.val ++ [rsv.2.2],
              camera_address := C.addrOf (pubkey C private_key),
              r := rsv.1, s := rsv.2.1, v := rsv.2.2 }

/-- The scalar digest `sign_photo` signs, for a 32-byte photo hash `hb`:
Keccak-256 of the EIP-191 preimage of the inner packed-encoding digest,
read as an integer. -/
def photoDigestZ (hb : List ℕ) (location metadata : List Char) (nonce : ℕ) : ZMod secpN :=
  ((beNat (keccak256 (encode_defunct
    (keccak256 (hb ++ utf8 location ++ utf8 metadata ++ beBytes 32 nonce)))) : ℕ) : ZMod secpN)

/-! ### Supporting lemmas -/

instance {ε α : Type} [DecidableEq ε] [DecidableEq α] : DecidableEq (Except ε α) := fun a b =>
  match a, b with
  | .ok x, .ok y => if h : x = y then .isTrue (by rw [h]) else .isFalse (by simp [h])
  | .error x, .error y => if h : x = y then .isTrue (by rw [h]) else .isFalse (by simp [h])
  | .ok _, .error _ => .isFalse (by simp)
  | .error _, .ok _ => .isFalse (by simp)

theorem ok_bind {ε α β : Type} (a : α) (f : α → Except ε β) :
    (Except.ok a : Except ε α) >>= f = f a := rfl

theorem map_ok {ε α β : Type} (f : α → β) (a : α) :
    f <$> (Except.ok a : Except ε α) = .ok (f a) := rfl

theorem error_bind {ε α β : Type} (e : ε) (f : α → Except ε β) :
    (Except.error e : Except ε α) >>= f = .error e := rfl

/-- A Keccak-256 digest is 32 bytes long. -/
theorem keccak256_length (msg : List ℕ) : (keccak256 msg).length = 32 := by
  simp [keccak256]

set_option maxRecDepth 10000 in
/-- Public test vector: the Keccak-256 digest of the empty input (the
well-known Ethereum empty-code hash), checking the hash implementation. -/
theorem keccak256_empty_vector :
    bytesToHex (keccak256 []) =
      "c5d2460186f7233c927e7db2dcc703c0e500b653ca82273b7bfad8045d85a470".data := by
  decide

set_option maxRecDepth 10000 in
/-- Public test vector: the Keccak-256 digest of `"abc"`, checking the hash
implementation. -/
theorem keccak256_abc_vector :
    bytesToHex (keccak256 (utf8 "abc".data)) =
      "4e03657aea45a94fc7d47ba826c8d667c0d1e6e33a64a036ec44f58fa12d6c45".data := by
  decide

/-! ### Claim theorems -/

set_option maxRecDepth 10000 in
/-- C1: for every pair of strings, `generate_camera_id` returns exactly the
Keccak-256 digest of the packed encoding of the two strings (their raw
UTF-8 bytes concatenated, no prefixes), it is deterministic, and on the
known vector `mac="1C:DB:D4:98:F9:D8"`, `efuse="D8F998D4DB1C"` it yields the
fixed recorded 32-byte digest. -/
theorem generate_camera_id_spec :
    (∀ mac efuse : List Char,
      generate_camera_id mac efuse =
        .ok ('0' :: 'x' :: bytesToHex (keccak256 (utf8 mac ++ utf8 efuse)))) ∧
    (∀ mac efuse : List Char, generate_camera_id mac efuse = generate_camera_id mac efuse) ∧
    generate_camera_id "1C:DB:D4:98:F9:D8".data "D8F998D4DB1C".data =
      .ok ('0' :: 'x' ::
        "fb571cf53f9f53003f51e13f55690684bcb9b7cff241ba6514417c6edc31c665".data) := by
  refine ⟨?_, fun _ _ => rfl, ?_⟩
  · intro mac efuse
    simp [generate_camera_id, encode_packed, encodePackedOne, ok_bind, map_ok]
  · decide

/-- C7: the packed encoding of `(string, string)` at `("ab", "cd")` is
exactly the four bytes `0x61 0x62 0x63 0x64`, and in general the packed
encoding of a list of string values is the concatenation of their raw UTF-8
bytes in argument order — no length markers, no padding, no separators. -/
theorem encode_packed_strings_spec :
    encode_packed [.string, .string] [.str "ab".data, .str "cd".data] =
        .ok [0x61, 0x62, 0x63, 0x64] ∧
    ∀ ss : List (List Char),
      encode_packed (ss.map fun _ => ABIType.string) (ss.map ABIValue.str) =
        .ok (ss.map utf8).flatten := by
  constructor
  · decide
  · intro ss
    induction ss with
    | nil => rfl
    | cons s ss ih =>
      simp only [List.map_cons, encode_packed, encodePackedOne, ok_bind, ih, map_ok,
        List.flatten_cons]
      rfl

/-- Block-count invariance: CBC decryption preserves the data length when
the block decryption does (one 16-byte block out per 16-byte block in). -/
theorem cbcDecryptBlocks_length (D : List ℕ → List ℕ → List ℕ) (key : List ℕ)
    (hD : ∀ b, b.length = 16 → (D key b).length = 16) :
    ∀ (fuel : ℕ) (prev ct : List ℕ), ct.length ≤ fuel → 16 ∣ ct.length →
      prev.length = 16 → (cbcDecryptBlocks D key fuel prev ct).length = ct.length := by
  intro fuel
  induction fuel with
  | zero =>
    intro prev ct hle _ _
    rw [cbcDecryptBlocks]
    simp only [List.length_nil]
    omega
  | succ n ih =>
    intro prev ct hle hdvd hprev
    rw [cbcDecryptBlocks]
    by_cases hct : ct.isEmpty
    · rw [List.isEmpty_iff] at hct
      simp [hct]
    · simp only [hct, Bool.false_eq_true, if_false]
      rw [Bool.not_eq_true, List.isEmpty_eq_false] at hct
      have h16 : 16 ≤ ct.length := Nat.le_of_dvd (List.length_pos.mpr hct) hdvd
      have htake : (ct.take 16).length = 16 := by
        rw [List.length_take]; omega
      have hblock : (xorBytes (D key (ct.take 16)) prev).length = 16 := by
        rw [xorBytes, List.length_zipWith, hD _ htake, hprev]
        omega
      have hrest : (cbcDecryptBlocks D key n (ct.take 16) (ct.drop 16)).length =
          (ct.drop 16).length := by
        refine ih (ct.take 16) (ct.drop 16) ?_ ?_ htake
        · rw [List.length_drop]; omega
        · rw [List.length_drop]
          exact Nat.dvd_sub' hdvd ⟨1, rfl⟩
      rw [List.length_append, hblock, hrest, List.length_drop]
      omega

/-- On nonempty input, `pkcs7_unpad` yields either the padding error or the
input with its trailing pad stripped. -/
theorem pkcs7_unpad_cases (data : List ℕ) (h : data ≠ []) :
    pkcs7_unpad data = .error .badPadding ∨
      pkcs7_unpad data = .ok (data.take (data.length - data.getLastD 0)) := by
  rw [pkcs7_unpad]
  simp only [List.isEmpty_eq_false.mpr h, Bool.false_eq_true, if_false]
  split_ifs <;> simp

/-- C5: on every (nonempty, block-aligned) decrypted byte sequence,
`pkcs7_unpad` reads the last byte as the pad length `p` and fails with the
padding error exactly when `p = 0`, `p > 16`, or the last `p` bytes are not
all equal to `p`; with valid padding it removes exactly the last `p`
bytes. -/
theorem pkcs7_unpad_spec (data : List ℕ) (hne : data ≠ []) (hlen : 16 ∣ data.length) :
    (pkcs7_unpad data = .error .badPadding ↔
      (data.getLastD 0 = 0 ∨ 16 < data.getLastD 0 ∨
        ∃ b ∈ data.drop (data.length - data.getLastD 0), b ≠ data.getLastD 0)) ∧
    ((data.getLastD 0 ≠ 0 ∧ data.getLastD 0 ≤ 16 ∧
        ∀ b ∈ data.drop (data.length - data.getLastD 0), b = data.getLastD 0) →
      pkcs7_unpad data = .ok (data.take (data.length - data.getLastD 0))) := by
  have hpos : 0 < data.length := List.length_pos.mpr hne
  have h16 : 16 ≤ data.length := Nat.le_of_dvd hpos hlen
  have hrep : data.getLastD 0 ≤ 16 →
      (data.drop (data.length - data.getLastD 0) =
          List.replicate (data.getLastD 0) (data.getLastD 0) ↔
        ∀ b ∈ data.drop (data.length - data.getLastD 0), b = data.getLastD 0) := by
    intro hp
    rw [List.eq_replicate_iff, List.length_drop]
    constructor
    · exact fun h => h.2
    · exact fun h => ⟨by omega, h⟩
  rw [pkcs7_unpad]
  simp only [List.isEmpty_eq_false.mpr hne, Bool.false_eq_true, if_false]
  split_ifs with h1 h2
  · constructor
    · constructor
      · intro _
        rcases h1 with h1 | h1
        · exact Or.inl h1
        · exact Or.inr (Or.inl h1)
      · intro _; rfl
    · intro hv
      rcases h1 with h1 | h1
      · exact absurd h1 hv.1
      · exact absurd h1 (by omega)
  · push_neg at h1
    constructor
    · constructor
      · intro _
        refine Or.inr (Or.inr ?_)
        by_contra hall
        push_neg at hall
        exact h2 ((hrep (by omega)).mpr fun b hb => hall b hb)
      · intro _; rfl
    · intro hv
      exact absurd ((hrep hv.2.1).mpr hv.2.2) h2
  · push_neg at h1
    rw [not_not] at h2
    constructor
    · constructor
      · intro h; exact absurd h (by simp)
      · intro hcase
        rcases hcase with hc | hc | ⟨b, hb, hbne⟩
        · exact absurd hc h1.1
        · exact absurd hc (by omega)
        · exact absurd ((hrep (by omega)).mp h2 b hb) hbne
    · intro _; rfl

/-- C4: `decrypt_aes_cbc` rejects keys that are not 16 bytes with the key
length error, then IVs that are not 16 bytes with the IV length error, then
ciphertexts whose length is not a positive multiple of 16 with a ciphertext
length error; when key, IV and ciphertext length are all valid (and the
block cipher preserves block length) none of those errors occurs — the only
possible failure is the padding error. -/
theorem decrypt_aes_cbc_validation (D : List ℕ → List ℕ → List ℕ)
    (ciphertext key iv : List ℕ) :
    (key.length ≠ 16 → decrypt_aes_cbc D ciphertext key iv = .error .keyLen) ∧
    (key.length = 16 → iv.length ≠ 16 →
      decrypt_aes_cbc D ciphertext key iv = .error .ivLen) ∧
    (key.length = 16 → iv.length = 16 →
      ¬(0 < ciphertext.length ∧ 16 ∣ ciphertext.length) →
      ∃ e, decrypt_aes_cbc D ciphertext key iv = .error e ∧ e.isCiphertextLengthError) ∧
    (key.length = 16 → iv.length = 16 → 0 < ciphertext.length → 16 ∣ ciphertext.length →
      (∀ b, b.length = 16 → (D key b).length = 16) →
      ∀ e, decrypt_aes_cbc D ciphertext key iv = .error e → e = .badPadding) := by
  refine ⟨?_, ?_, ?_, ?_⟩
  · intro hk
    rw [decrypt_aes_cbc, if_pos hk]
  · intro hk hiv
    rw [decrypt_aes_cbc, if_neg (by omega), if_pos hiv]
  · intro hk hiv hbad
    by_cases hmod : ciphertext.length % 16 = 0
    · have hdvd : 16 ∣ ciphertext.length := Nat.dvd_of_mod_eq_zero hmod
      have hzero : ciphertext.length = 0 := by
        rcases Nat.eq_zero_or_pos ciphertext.length with h | h
        · exact h
        · exact absurd ⟨h, hdvd⟩ hbad
      have hctnil : ciphertext = [] := List.length_eq_zero.mp hzero
      refine ⟨.emptyData, ?_, trivial⟩
      rw [decrypt_aes_cbc, if_neg (by omega), if_neg (by omega), if_neg (by omega),
        hctnil]
      rfl
    · refine ⟨.cbcDataLen, ?_, trivial⟩
      rw [decrypt_aes_cbc, if_neg (by omega), if_neg (by omega), if_pos hmod]
  · intro hk hiv hpos hdvd hD e he
    rw [decrypt_aes_cbc, if_neg (by omega), if_neg (by omega), if_neg (by omega)] at he
    have hlen : (cbcDecryptBlocks D key ciphertext.length iv ciphertext).length =
        ciphertext.length :=
      cbcDecryptBlocks_length D key hD ciphertext.length iv ciphertext le_rfl hdvd hiv
    have hne : cbcDecryptBlocks D key ciphertext.length iv ciphertext ≠ [] := by
      intro hnil
      rw [hnil] at hlen
      simp at hlen
      omega
    rcases pkcs7_unpad_cases _ hne with hcase | hcase
    · rw [hcase] at he
      injection he with h
      exact h.symm
    · rw [hcase] at he
      exact absurd he (by simp)

/-- XOR-ing twice with the same block is the identity. -/
theorem xorBytes_cancel : ∀ (a b : List ℕ), a.length ≤ b.length →
    xorBytes (xorBytes a b) b = a := by
  intro a
  induction a with
  | nil => intro b _; rfl
  | cons x xs ih =>
    intro b hb
    cases b with
    | nil => simp at hb
    | cons y ys =>
      simp only [xorBytes, List.zipWith_cons_cons] at ih ⊢
      rw [Nat.xor_cancel_right, ih ys (by simpa using hb)]

/-- CBC encryption preserves the data length when the block encryption
does. -/
theorem cbcEncryptBlocks_length (E : List ℕ → List ℕ → List ℕ) (key : List ℕ)
    (hE : ∀ b, b.length = 16 → (E key b).length = 16) :
    ∀ (fuel : ℕ) (prev pt : List ℕ), pt.length ≤ fuel → 16 ∣ pt.length →
      prev.length = 16 → (cbcEncryptBlocks E key fuel prev pt).length = pt.length := by
  intro fuel
  induction fuel with
  | zero =>
    intro prev pt hle _ _
    rw [cbcEncryptBlocks]
    simp only [List.length_nil]
    omega
  | succ n ih =>
    intro prev pt hle hdvd hprev
    rw [cbcEncryptBlocks]
    by_cases hpt : pt.isEmpty
    · rw [List.isEmpty_iff] at hpt
      simp [hpt]
    · simp only [hpt, Bool.false_eq_true, if_false]
      rw [Bool.not_eq_true, List.isEmpty_eq_false] at hpt
      have h16 : 16 ≤ pt.length := Nat.le_of_dvd (List.length_pos.mpr hpt) hdvd
      have htake : (pt.take 16).length = 16 := by
        rw [List.length_take]; omega
      have hxor : (xorBytes (pt.take 16) prev).length = 16 := by
        rw [xorBytes, List.length_zipWith, htake, hprev]
        omega
      have hrest : (cbcEncryptBlocks E key n (E key (xorBytes (pt.take 16) prev))
          (pt.drop 16)).length = (pt.drop 16).length := by
        refine ih _ (pt.drop 16) ?_ ?_ (hE _ hxor)
        · rw [List.length_drop]; omega
        · rw [List.length_drop]
          exact Nat.dvd_sub' hdvd ⟨1, rfl⟩
      rw [List.length_append, hE _ hxor, hrest, List.length_drop]
      omega

/-- Encrypting with no plaintext yields no ciphertext. -/
theorem cbcEncryptBlocks_nil (E : List ℕ → List ℕ → List ℕ) (key : List ℕ) :
    ∀ (fuel : ℕ) (prev : List ℕ), cbcEncryptBlocks E key fuel prev [] = [] := by
  intro fuel prev
  cases fuel <;> rfl

/-- CBC decryption inverts CBC encryption block by block when the block
decryption inverts the block encryption. -/
theorem cbc_roundtrip (E D : List ℕ → List ℕ → List ℕ) (key : List ℕ)
    (hED : ∀ b, b.length = 16 → D key (E key b) = b)
    (hE : ∀ b, b.length = 16 → (E key b).length = 16) :
    ∀ (fuelD fuelE : ℕ) (q prev : List ℕ), q.length ≤ fuelD → q.length ≤ fuelE →
      16 ∣ q.length → prev.length = 16 →
      cbcDecryptBlocks D key fuelD prev (cbcEncryptBlocks E key fuelE prev q) = q := by
  intro fuelD
  induction fuelD with
  | zero =>
    intro fuelE q prev h1 _ _ _
    have hq : q = [] := List.length_eq_zero.mp (by omega)
    subst hq
    rw [cbcEncryptBlocks_nil]
    rfl
  | succ n ih =>
    intro fuelE q prev hDle hEle hdvd hprev
    by_cases hq : q = []
    · subst hq
      rw [cbcEncryptBlocks_nil]
      rfl
    · have h16 : 16 ≤ q.length := Nat.le_of_dvd (List.length_pos.mpr hq) hdvd
      cases fuelE with
      | zero => omega
      | succ m =>
        rw [cbcEncryptBlocks]
        simp only [List.isEmpty_eq_false.mpr hq, Bool.false_eq_true, if_false]
        have htq : (q.take 16).length = 16 := by
          rw [List.length_take]; omega
        have hxq : (xorBytes (q.take 16) prev).length = 16 := by
          rw [xorBytes, List.length_zipWith, htq, hprev]
          omega
        have hclen : (E key (xorBytes (q.take 16) prev)).length = 16 := hE _ hxq
        rw [cbcDecryptBlocks]
        have hne : (E key (xorBytes (q.take 16) prev) ++
            cbcEncryptBlocks E key m (E key (xorBytes (q.take 16) prev))
              (q.drop 16)).isEmpty = false := by
          rw [List.isEmpty_eq_false]
          intro h
          have := congrArg List.length h
          rw [List.length_append, hclen] at this
          simp at this
        simp only [hne, Bool.false_eq_true, if_false]
        rw [List.take_left' hclen, List.drop_left' hclen, hED _ hxq,
          xorBytes_cancel _ _ (by rw [htq, hprev])]
        rw [ih m (q.drop 16) (E key (xorBytes (q.take 16) prev)) ?_ ?_ ?_ hclen]
        · exact List.take_append_drop 16 q
        · rw [List.length_drop]; omega
        · rw [List.length_drop]; omega
        · rw [List.length_drop]
          exact Nat.dvd_sub' hdvd ⟨1, rfl⟩

/-- The padded length is the next positive multiple of 16. -/
theorem pkcs7_pad_dvd (pt : List ℕ) : 16 ∣ (pkcs7_pad pt).length := by
  have h := Nat.mod_lt pt.length (show 0 < 16 by norm_num)
  have h2 := Nat.div_add_mod pt.length 16
  simp only [pkcs7_pad, List.length_append, List.length_replicate]
  omega

/-- Stripping the PKCS#7 pad recovers the padded plaintext exactly. -/
theorem pkcs7_unpad_pad (pt : List ℕ) : pkcs7_unpad (pkcs7_pad pt) = .ok pt := by
  have hmod := Nat.mod_lt pt.length (show 0 < 16 by norm_num)
  have hp1 : 1 ≤ 16 - pt.length % 16 := by omega
  have hpadded : pkcs7_pad pt =
      pt ++ List.replicate (16 - pt.length % 16) (16 - pt.length % 16) := rfl
  have hne : pkcs7_pad pt ≠ [] := by
    intro h
    have := congrArg List.length h
    simp only [pkcs7_pad, List.length_append, List.length_replicate, List.length_nil] at this
    omega
  have hsplit : ∀ (n a : ℕ), 1 ≤ n → List.replicate n a = List.replicate (n - 1) a ++ [a] := by
    intro n a h
    conv_lhs => rw [show n = (n - 1) + 1 by omega]
    exact List.replicate_succ' _ _
  have hlast : (pkcs7_pad pt).getLastD 0 = 16 - pt.length % 16 := by
    rw [hpadded, hsplit _ _ hp1, ← List.append_assoc, List.getLastD_concat]
  rw [pkcs7_unpad]
  simp only [List.isEmpty_eq_false.mpr hne, Bool.false_eq_true, if_false, hlast]
  rw [if_neg (by omega)]
  rw [hpadded]
  simp only [List.length_append, List.length_replicate, Nat.add_sub_cancel]
  rw [List.drop_left, if_neg (by simp), List.take_left]

/-- C6: for every 16-byte key, 16-byte IV and plaintext, CBC decryption of
the CBC encryption of the PKCS#7-padded plaintext — with a block cipher
whose decryption inverts its encryption on 16-byte blocks — returns exactly
the original plaintext. -/
theorem decrypt_encrypt_roundtrip (E D : List ℕ → List ℕ → List ℕ)
    (key iv plaintext : List ℕ) (hkey : key.length = 16) (hiv : iv.length = 16)
    (hED : ∀ b, b.length = 16 → D key (E key b) = b)
    (hE : ∀ b, b.length = 16 → (E key b).length = 16) :
    decrypt_aes_cbc D (encrypt_aes_cbc E plaintext key iv) key iv = .ok plaintext := by
  have hpdvd : 16 ∣ (pkcs7_pad plaintext).length := pkcs7_pad_dvd plaintext
  have hplen : (pkcs7_pad plaintext).length ≤ plaintext.length + 16 := by
    simp only [pkcs7_pad, List.length_append, List.length_replicate]
    omega
  have hctlen : (encrypt_aes_cbc E plaintext key iv).length = (pkcs7_pad plaintext).length := by
    rw [encrypt_aes_cbc]
    exact cbcEncryptBlocks_length E key hE _ iv _ hplen hpdvd hiv
  rw [decrypt_aes_cbc, if_neg (by omega), if_neg (by omega),
    if_neg (by rw [hctlen]; omega), hctlen, encrypt_aes_cbc,
    cbc_roundtrip E D key hED hE _ _ _ iv le_rfl hplen hpdvd hiv]
  exact pkcs7_unpad_pad plaintext

/-! ### ECDSA recovery algebra -/

/-- Scalar multiples of a generator killed by `secpN` only depend on the
exponent mod `secpN`. -/
theorem nsmul_mod_ord (g : P) (hg : secpN • g = 0) (x : ℕ) :
    x • g = (x % secpN) • g := by
  conv_lhs => rw [← Nat.div_add_mod x secpN]
  rw [add_nsmul, mul_nsmul, hg, smul_zero, zero_add]

/-- Folding a product of scalars into one exponent. -/
theorem val_mul_smul (g : P) (hg : secpN • g = 0) (a b : ZMod secpN) :
    a.val • b.val • g = (a * b).val • g := by
  rw [ZMod.val_mul, ← nsmul_mod_ord g hg, mul_comm a.val b.val, mul_nsmul]

/-- Splitting a sum of scalars into a sum of points. -/
theorem val_add_smul (g : P) (hg : secpN • g = 0) (a b : ZMod secpN) :
    (a + b).val • g = a.val • g + b.val • g := by
  rw [ZMod.val_add, ← nsmul_mod_ord g hg, add_nsmul]

/-- ECDSA recovery correctness: applied to the signer's nonce point and the
signature scalars `r = x(k·G)`, `s = k⁻¹(z + r·d)`, recovery returns the
signer's public key (for invertible `k` and `r`). -/
theorem ecdsa_recover_core (C : EthChain P) (d z k : ZMod secpN) (hk : IsUnit k)
    (hr : IsUnit (C.xcoord (k.val • C.g))) :
    ecdsaRecover C (k.val • C.g) (C.xcoord (k.val • C.g))
      (k⁻¹ * (z + C.xcoord (k.val • C.g) * d)) z = pubkey C d := by
  set r := C.xcoord (k.val • C.g) with hrdef
  rw [ecdsaRecover, val_mul_smul C.g C.ordg]
  have h2 : r⁻¹ * (k⁻¹ * (z + r * d)) * k = r⁻¹ * z + d := by
    have hkk : k * k⁻¹ = 1 := ZMod.mul_inv_of_unit k hk
    have hrr : r * r⁻¹ = 1 := ZMod.mul_inv_of_unit r hr
    calc r⁻¹ * (k⁻¹ * (z + r * d)) * k = r⁻¹ * (z + r * d) * (k * k⁻¹) := by ring
    _ = r⁻¹ * z + (r * r⁻¹) * d := by rw [hkk]; ring
    _ = r⁻¹ * z + d := by rw [hrr, one_mul]
  rw [h2, val_add_smul C.g C.ordg, add_sub_cancel_left]
  exact rfl

/-- Shorthand for the `0x`-normalized photo hash. -/
theorem has0x_normalized (ph : List Char) :
    has0x (if has0x ph then ph else '0' :: 'x' :: ph) = true := by
  by_cases h : has0x ph
  · rw [if_pos h, h]
  · rw [if_neg h]
    rfl

/-- For a 32-byte payload the EIP-191 preimage is the fixed ASCII text
`"\x19Ethereum Signed Message:\n32"` followed by the payload. -/
theorem encode_defunct_32 (msg : List ℕ) (h : msg.length = 32) :
    encode_defunct msg = utf8 "\x19Ethereum Signed Message:\n32".data ++ msg := by
  rw [encode_defunct, h,
    show utf8 "\x19Ethereum Signed Message:\n32".data =
      (0x19 : ℕ) :: utf8 "Ethereum Signed Message:\n".data ++ utf8 (Nat.repr 32).data
      from by decide]

/-- The four-field packed encoding used by `sign_photo`, on well-formed
values. -/
theorem solidity_keccak_photo (hb : List ℕ) (location metadata : List Char) (nonce : ℕ)
    (hlen : hb.length = 32) (hnonce : nonce < 2 ^ 256) :
    solidity_keccak [.bytes32, .string, .string, .uint256]
        [.bytes hb, .str location, .str metadata, .uint nonce] =
      .ok (keccak256 (hb ++ utf8 location ++ utf8 metadata ++ beBytes 32 nonce)) := by
  rw [solidity_keccak]
  simp [encode_packed, encodePackedOne, hlen, hnonce, ok_bind, map_ok, Except.map, -Nat.reducePow]

/-- On well-formed inputs `sign_photo` succeeds and returns exactly the
record built from the normalized hash, the ECDSA signature over the
personal-message digest, and the signer's address. -/
theorem sign_photo_ok (C : EthChain P) (d : ZMod secpN)
    (photo_hash location metadata : List Char) (nonce : ℕ) (hb : List ℕ)
    (hd : d ≠ 0)
    (hhex : hexStrToBytes ((if has0x photo_hash then photo_hash
      else '0' :: 'x' :: photo_hash).drop 2) = some hb)
    (hlen : hb.length = 32) (hnonce : nonce < 2 ^ 256) :
    sign_photo C d photo_hash location metadata nonce = .ok
      { photo_hash := if has0x photo_hash then photo_hash else '0' :: 'x' :: photo_hash,
        location := location, metadata := metadata, nonce := nonce,
        signature :=
          beBytes 32 (ecdsaSign C d (photoDigestZ hb location metadata nonce)).1.val ++
          beBytes 32 (ecdsaSign C d (photoDigestZ hb location metadata nonce)).2.1.val ++
          [(ecdsaSign C d (photoDigestZ hb location metadata nonce)).2.2],
        camera_address := C.addrOf (pubkey C d),
        r := (ecdsaSign C d (photoDigestZ hb location metadata nonce)).1,
        s := (ecdsaSign C d (photoDigestZ hb location metadata nonce)).2.1,
        v := (ecdsaSign C d (photoDigestZ hb location metadata nonce)).2.2 } := by
  rw [sign_photo, if_neg hd]
  simp only [hhex, solidity_keccak_photo hb location metadata nonce hlen hnonce,
    photoDigestZ]

/-- The final digest exactly as the spec words it (steps 1-3 of the
PhotoSigner algorithm): inner Keccak-256 of the packed
`(bytes32, string, string, uint256)` encoding, prefixed by the fixed ASCII
text `"\x19Ethereum Signed Message:\n32"`, hashed again with Keccak-256 and
read as a scalar.  Stated from the spec, to be compared with the embedding
of `sign_photo`. -/
def specFinalDigest (hb : List ℕ) (location metadata : List Char) (nonce : ℕ) : ZMod secpN :=
  ((beNat (keccak256 (utf8 "\x19Ethereum Signed Message:\n32".data ++
    keccak256 (hb ++ utf8 location ++ utf8 metadata ++ beBytes 32 nonce))) : ℕ) : ZMod secpN)

/-- C2: on every valid input, the digest `sign_photo` signs is computed in
exactly the specified steps - the inner Keccak-256 of the packed
`(bytes32, string, string, uint256)` encoding, then the EIP-191 preimage
with the fixed ASCII text `"\x19Ethereum Signed Message:\n32"`, then
Keccak-256 of that preimage - and the secp256k1 ECDSA signature in the
returned record is produced over exactly that final digest. -/
theorem sign_photo_digest_pipeline (C : EthChain P) (d : ZMod secpN)
    (photo_hash location metadata : List Char) (nonce : ℕ) (hb : List ℕ)
    (hd : d ≠ 0)
    (hhex : hexStrToBytes ((if has0x photo_hash then photo_hash
      else '0' :: 'x' :: photo_hash).drop 2) = some hb)
    (hlen : hb.length = 32) (hnonce : nonce < 2 ^ 256) :
    sign_photo C d photo_hash location metadata nonce = .ok
      { photo_hash := if has0x photo_hash then photo_hash else '0' :: 'x' :: photo_hash,
        location := location, metadata := metadata, nonce := nonce,
        signature :=
          beBytes 32 (ecdsaSign C d (specFinalDigest hb location metadata nonce)).1.val ++
          beBytes 32 (ecdsaSign C d (specFinalDigest hb location metadata nonce)).2.1.val ++
          [(ecdsaSign C d (specFinalDigest hb location metadata nonce)).2.2],
        camera_address := C.addrOf (pubkey C d),
        r := (ecdsaSign C d (specFinalDigest hb location metadata nonce)).1,
        s := (ecdsaSign C d (specFinalDigest hb location metadata nonce)).2.1,
        v := (ecdsaSign C d (specFinalDigest hb location metadata nonce)).2.2 } := by
  have hz : photoDigestZ hb location metadata nonce =
      specFinalDigest hb location metadata nonce := by
    rw [photoDigestZ, specFinalDigest, encode_defunct_32 _ (keccak256_length _)]
  rw [sign_photo_ok C d photo_hash location metadata nonce hb hd hhex hlen hnonce, hz]

/-- A literal `0x` head satisfies the prefix test. -/
theorem has0x_cons (l : List Char) : has0x ('0' :: 'x' :: l) = true := rfl

/-- C3: on every valid input, standard ECDSA public-key recovery applied to
the signature in the record returned by `sign_photo`, over the same
personal-message digest, yields exactly the signer's public key — hence the
Ethereum address derived from the private key, which is also the address
reported in the returned record. -/
theorem sign_photo_recovery (C : EthChain P) (d : ZMod secpN)
    (photo_hash location metadata : List Char) (nonce : ℕ) (hb : List ℕ)
    (hd : d ≠ 0)
    (hhex : hexStrToBytes ((if has0x photo_hash then photo_hash
      else '0' :: 'x' :: photo_hash).drop 2) = some hb)
    (hlen : hb.length = 32) (hnonce : nonce < 2 ^ 256)
    (hk : IsUnit (C.nonceOf d (photoDigestZ hb location metadata nonce)))
    (hr : IsUnit (C.xcoord ((C.nonceOf d (photoDigestZ hb location metadata nonce)).val •
      C.g))) :
    ∃ rec : SignedPhoto,
      sign_photo C d photo_hash location metadata nonce = .ok rec ∧
      ecdsaRecover C ((C.nonceOf d (photoDigestZ hb location metadata nonce)).val • C.g)
        rec.r rec.s (photoDigestZ hb location metadata nonce) = pubkey C d ∧
      C.addrOf (ecdsaRecover C
        ((C.nonceOf d (photoDigestZ hb location metadata nonce)).val • C.g)
        rec.r rec.s (photoDigestZ hb location metadata nonce)) = rec.camera_address ∧
      rec.camera_address = C.addrOf (pubkey C d) := by
  have hz : ecdsaRecover C
      ((C.nonceOf d (photoDigestZ hb location metadata nonce)).val • C.g)
      (ecdsaSign C d (photoDigestZ hb location metadata nonce)).1
      (ecdsaSign C d (photoDigestZ hb location metadata nonce)).2.1
      (photoDigestZ hb location metadata nonce) = pubkey C d :=
    ecdsa_recover_core C d (photoDigestZ hb location metadata nonce)
      (C.nonceOf d (photoDigestZ hb location metadata nonce)) hk hr
  exact ⟨_, sign_photo_ok C d photo_hash location metadata nonce hb hd hhex hlen hnonce,
    hz, congrArg C.addrOf hz, rfl⟩

/-- C9: `sign_photo` fails with the invalid-key error on a private key that
is not a valid secp256k1 scalar, fails with the invalid-input error when the
photo hash is not exactly 32 bytes or the nonce does not fit in 256 bits,
and on well-formed inputs returns a signed record — it never falls back to a
default for malformed input. -/
theorem sign_photo_error_handling (C : EthChain P) (d : ZMod secpN)
    (photo_hash location metadata : List Char) (nonce : ℕ) :
    (d = 0 → sign_photo C d photo_hash location metadata nonce = .error .invalidKey) ∧
    (∀ hb, d ≠ 0 → hexStrToBytes ((if has0x photo_hash then photo_hash
        else '0' :: 'x' :: photo_hash).drop 2) = some hb → hb.length ≠ 32 →
      sign_photo C d photo_hash location metadata nonce = .error .invalidInput) ∧
    (∀ hb, d ≠ 0 → hexStrToBytes ((if has0x photo_hash then photo_hash
        else '0' :: 'x' :: photo_hash).drop 2) = some hb → hb.length = 32 →
        2 ^ 256 ≤ nonce →
      sign_photo C d photo_hash location metadata nonce = .error .invalidInput) ∧
    (∀ hb, d ≠ 0 → hexStrToBytes ((if has0x photo_hash then photo_hash
        else '0' :: 'x' :: photo_hash).drop 2) = some hb → hb.length = 32 →
        nonce < 2 ^ 256 →
      ∃ rec, sign_photo C d photo_hash location metadata nonce = .ok rec) := by
  refine ⟨?_, ?_, ?_, ?_⟩
  · intro h
    rw [sign_photo, if_pos h]
  · intro hb hd hhex hlen
    have hsol : solidity_keccak [.bytes32, .string, .string, .uint256]
        [.bytes hb, .str location, .str metadata, .uint nonce] =
        .error .valueOutOfBounds := by
      rw [solidity_keccak]
      simp [encode_packed, encodePackedOne, hlen, ok_bind, error_bind, Except.map]
    rw [sign_photo, if_neg hd]
    simp only [hhex, hsol]
  · intro hb hd hhex hlen hnonce
    have hsol : solidity_keccak [.bytes32, .string, .string, .uint256]
        [.bytes hb, .str location, .str metadata, .uint nonce] =
        .error .valueOutOfBounds := by
      rw [solidity_keccak]
      simp [encode_packed, encodePackedOne, hlen, ok_bind, error_bind, Except.map,
        show ¬nonce < 2 ^ 256 by omega, -Nat.reducePow]
    rw [sign_photo, if_neg hd]
    simp only [hhex, hsol]
  · intro hb hd hhex hlen hnonce
    exact ⟨_, sign_photo_ok C d photo_hash location metadata nonce hb hd hhex hlen hnonce⟩

/-- C10: `sign_photo` normalizes a photo-hash string without the `0x` head
by prepending it — signing `h` and signing `0x`-prefixed `h` give identical
results — and the `photo_hash` field of every returned record carries the
`0x` head. -/
theorem sign_photo_hex_normalization (C : EthChain P) (d : ZMod secpN)
    (photo_hash location metadata : List Char) (nonce : ℕ) :
    (has0x photo_hash = false →
      sign_photo C d photo_hash location metadata nonce =
        sign_photo C d ('0' :: 'x' :: photo_hash) location metadata nonce) ∧
    (∀ rec, sign_photo C d photo_hash location metadata nonce = .ok rec →
      has0x rec.photo_hash = true) := by
  constructor
  · intro h
    rw [sign_photo, sign_photo]
    simp only [h, has0x_cons, Bool.false_eq_true, if_false, if_true]
  · intro rec h
    by_cases hd : d = 0
    · rw [sign_photo, if_pos hd] at h
      exact absurd h (by simp)
    · rw [sign_photo, if_neg hd] at h
      cases hx : hexStrToBytes ((if has0x photo_hash then photo_hash
          else '0' :: 'x' :: photo_hash).drop 2) with
      | none =>
        simp only [hx] at h
        exact absurd h (by simp)
      | some hb =>
        simp only [hx] at h
        split at h
        · exact absurd h (by simp)
        · injection h with h2
          rw [← h2]
          exact has0x_normalized photo_hash

/-! ### Concrete instantiations -/

/-- A concrete signing backend over the additive group `ZMod secpN` with
generator `1`, used to evaluate the signing theorems at concrete inputs. -/
def toyChain : EthChain (ZMod secpN) where
  g := 1
  ordg := by rw [nsmul_eq_mul, mul_one, ZMod.natCast_self]
  xcoord := fun p => p
  nonceOf := fun _ _ => 1
  parity := fun _ => false
  addrOf := fun _ => []

/-- A 64-character hexadecimal photo hash used for concrete evaluations. -/
def hash64 : List Char :=
  "1111111111111111111111111111111111111111111111111111111111111111".data

set_option maxRecDepth 10000 in
theorem sign_photo_digest_pipeline_witness :
    ∃ rec, sign_photo toyChain 1 hash64 [] [] 0 = .ok rec :=
  ⟨_, sign_photo_digest_pipeline toyChain 1 hash64 [] [] 0 (List.replicate 32 17)
    one_ne_zero (by decide) (by decide) (by decide)⟩

set_option maxRecDepth 10000 in
theorem sign_photo_recovery_witness :
    ∃ rec : SignedPhoto,
      sign_photo toyChain 1 hash64 [] [] 0 = .ok rec ∧
      ecdsaRecover toyChain
        ((toyChain.nonceOf 1 (photoDigestZ (List.replicate 32 17) [] [] 0)).val • toyChain.g)
        rec.r rec.s (photoDigestZ (List.replicate 32 17) [] [] 0) = pubkey toyChain 1 ∧
      toyChain.addrOf (ecdsaRecover toyChain
        ((toyChain.nonceOf 1 (photoDigestZ (List.replicate 32 17) [] [] 0)).val • toyChain.g)
        rec.r rec.s (photoDigestZ (List.replicate 32 17) [] [] 0)) = rec.camera_address ∧
      rec.camera_address = toyChain.addrOf (pubkey toyChain 1) := by
  have hval : ((1 : ZMod secpN).val • (1 : ZMod secpN)) = 1 := by
    rw [ZMod.val_one, one_nsmul]
  refine sign_photo_recovery toyChain 1 hash64 [] [] 0 (List.replicate 32 17)
    one_ne_zero (by decide) (by decide) (by decide) isUnit_one ?_
  show IsUnit ((1 : ZMod secpN).val • (1 : ZMod secpN))
  rw [hval]
  exact isUnit_one

set_option maxRecDepth 10000 in
theorem sign_photo_error_handling_witness :
    (sign_photo toyChain 0 hash64 [] [] 0 = .error .invalidKey) ∧
    (sign_photo toyChain 1 "ab".data [] [] 0 = .error .invalidInput) ∧
    (sign_photo toyChain 1 hash64 [] [] (2 ^ 256) = .error .invalidInput) ∧
    (∃ rec, sign_photo toyChain 1 hash64 [] [] 0 = .ok rec) :=
  ⟨(sign_photo_error_handling toyChain 0 hash64 [] [] 0).1 rfl,
   (sign_photo_error_handling toyChain 1 "ab".data [] [] 0).2.1 [171]
     one_ne_zero (by decide) (by decide),
   (sign_photo_error_handling toyChain 1 hash64 [] [] (2 ^ 256)).2.2.1
     (List.replicate 32 17) one_ne_zero (by decide) (by decide) le_rfl,
   (sign_photo_error_handling toyChain 1 hash64 [] [] 0).2.2.2
     (List.replicate 32 17) one_ne_zero (by decide) (by decide) (by decide)⟩

set_option maxRecDepth 10000 in
theorem sign_photo_hex_normalization_witness :
    sign_photo toyChain 1 hash64 [] [] 0 =
      sign_photo toyChain 1 ('0' :: 'x' :: hash64) [] [] 0 :=
  (sign_photo_hex_normalization toyChain 1 hash64 [] [] 0).1 (by decide)

theorem decrypt_aes_cbc_validation_witness :
    (decrypt_aes_cbc (fun _ b => b) [] (List.replicate 15 0) (List.replicate 16 0) =
      .error .keyLen) ∧
    (decrypt_aes_cbc (fun _ b => b) [] (List.replicate 16 0) (List.replicate 17 0) =
      .error .ivLen) ∧
    (∃ e, decrypt_aes_cbc (fun _ b => b) (List.replicate 17 0) (List.replicate 16 0)
      (List.replicate 16 0) = .error e ∧ e.isCiphertextLengthError) ∧
    (∃ e, decrypt_aes_cbc (fun _ b => b) [] (List.replicate 16 0)
      (List.replicate 16 0) = .error e ∧ e.isCiphertextLengthError) ∧
    (∀ e, decrypt_aes_cbc (fun _ b => b) (List.replicate 16 0) (List.replicate 16 0)
      (List.replicate 16 0) = .error e → e = .badPadding) :=
  ⟨(decrypt_aes_cbc_validation (fun _ b => b) [] (List.replicate 15 0)
      (List.replicate 16 0)).1 (by decide),
   (decrypt_aes_cbc_validation (fun _ b => b) [] (List.replicate 16 0)
      (List.replicate 17 0)).2.1 (by decide) (by decide),
   (decrypt_aes_cbc_validation (fun _ b => b) (List.replicate 17 0) (List.replicate 16 0)
      (List.replicate 16 0)).2.2.1 (by decide) (by decide) (by decide),
   (decrypt_aes_cbc_validation (fun _ b => b) [] (List.replicate 16 0)
      (List.replicate 16 0)).2.2.1 (by decide) (by decide) (by decide),
   (decrypt_aes_cbc_validation (fun _ b => b) (List.replicate 16 0) (List.replicate 16 0)
      (List.replicate 16 0)).2.2.2 (by decide) (by decide) (by decide) (by decide)
      (fun _ hb => hb)⟩

theorem pkcs7_unpad_spec_witness : pkcs7_unpad (List.replicate 16 16) = .ok [] := by
  have h := (pkcs7_unpad_spec (List.replicate 16 16) (by decide) (by decide)).2 (by decide)
  rw [h]
  decide

theorem decrypt_encrypt_roundtrip_witness :
    decrypt_aes_cbc (fun _ b => b)
      (encrypt_aes_cbc (fun _ b => b) [1, 2, 3] (List.replicate 16 0) (List.replicate 16 0))
      (List.replicate 16 0) (List.replicate 16 0) = .ok [1, 2, 3] :=
  decrypt_encrypt_roundtrip (fun _ b => b) (fun _ b => b) (List.replicate 16 0)
    (List.replicate 16 0) [1, 2, 3] (by decide) (by decide) (fun _ _ => rfl)
    (fun _ hb => hb)

end Surveillance
